import Mathlib

/-!
Verification of the tic-tac-toe game logic from
`src/tic_tac_toe_frontend/src/App.js`.

The JS board is an array of 9 cells each holding `"X"`, `"O"` or `null`;
we model cells as `Option Mark`.  `checkWinner` returns `"X"`, `"O"`,
`"draw"` or `null`; we model its result type as `GameResult`, with
`inProgress` standing for the JS `null`.  The React component state
(`mode`, `board`, `isXTurn`, `winner`, `gameActive`) is modelled as the
`Session` structure, and the state-updating handlers as functions
`Session → Session`; the `useEffect` that recomputes `winner` and
`gameActive` from the board after every accepted move is folded into
`makeMove`, which is the net state transition of one accepted move.
The unseeded `Math.random()` draws in tiers 4 and 5 of `computerMove`
are modelled by two `Nat` parameters `r4 r5`, reduced modulo the length
of the candidate list, so every candidate the JS code can pick is
realised by some parameter value.
-/

namespace TicTacToe

/-- A player mark: the JS strings `"X"` and `"O"`. -/
inductive Mark : Type
  | X
  | O
  deriving DecidableEq, Fintype

/-- A board cell: `none` models the JS `null`, `some m` a placed mark. -/
abbrev Cell : Type := Option Mark

/-- A board: the JS array of cells, read in index order. -/
abbrev Board : Type := List Cell

/-- Result of `checkWinner`: `"X"`/`"O"` become `winner m`, `"draw"`
becomes `draw`, and the JS `null` becomes `inProgress`. -/
inductive GameResult : Type
  | winner (m : Mark)
  | draw
  | inProgress
  deriving DecidableEq

/-- The two entries of the JS `MODES` object. -/
inductive Mode : Type
  | single
  | two
  deriving DecidableEq

/-- JS `board[i]` (indices used by the code are always in range;
out-of-range reads give `undefined`, modelled as `none`). -/
def cellAt (b : Board) (i : Nat) : Cell := b.getD i none

/-- JS `getInitialBoard()`: `Array(9).fill(null)`. -/
def getInitialBoard : Board := List.replicate 9 none

/-- The `lines` array inside `checkWinner`: 3 rows, 3 columns,
2 diagonals, in the order of the source. -/
def lines : List (Nat × Nat × Nat) :=
  [(0, 1, 2), (3, 4, 5), (6, 7, 8),
   (0, 3, 6), (1, 4, 7), (2, 5, 8),
   (0, 4, 8), (2, 4, 6)]

/-- One iteration of the loop body of `checkWinner`:
`board[a] && board[a] === board[b] && board[a] === board[c]`
yields `board[a]`, else nothing. -/
def lineWin (b : Board) (l : Nat × Nat × Nat) : Option Mark :=
  match cellAt b l.1 with
  | none => none
  | some m =>
      if cellAt b l.2.1 = some m ∧ cellAt b l.2.2 = some m then some m
      else none

/-- The `for (let arr of lines)` loop of `checkWinner`: the first line
whose three cells hold the same non-empty mark. -/
def firstWin (b : Board) : List (Nat × Nat × Nat) → Option Mark
  | [] => none
  | l :: ls =>
      match lineWin b l with
      | some m => some m
      | none => firstWin b ls

/-- JS `checkWinner(board)`: first matching line wins; otherwise draw
if the board is full (`board.every((cell) => cell)`), otherwise null. -/
def checkWinner (b : Board) : GameResult :=
  match firstWin b lines with
  | some m => GameResult.winner m
  | none =>
      if b.all (fun c => c.isSome) then GameResult.draw
      else GameResult.inProgress

/-- Helper recursion for `getAvailableMoves`: the indices (counted from
`k`) of the empty cells, in ascending order. -/
def availAux : Nat → List Cell → List Nat
  | _, [] => []
  | k, c :: cs =>
      if c = none then k :: availAux (k + 1) cs else availAux (k + 1) cs

/-- JS `getAvailableMoves(board)`: the indices of the `null` cells, in
ascending index order (the JS `map`-then-`filter` idiom). -/
def getAvailableMoves (b : Board) : List Nat := availAux 0 b

/-- The shared shape of tiers 1 and 2 of `computerMove`: the first
available index at which placing `m` makes `checkWinner` report `m`
as winner. -/
def findWinIdx (b : Board) (m : Mark) : Option Nat :=
  (getAvailableMoves b).find?
    (fun i => checkWinner (b.set i (some m)) = GameResult.winner m)

/-- The `corners` constant of tier 4 of `computerMove`:
`[0, 2, 6, 8].filter((i) => board[i] == null)`. -/
def corners (b : Board) : List Nat :=
  [0, 2, 6, 8].filter (fun i => cellAt b i = none)

/-- JS `computerMove(board, aiMark, humanMark)`.  The two
`Math.floor(Math.random() * len)` draws (corner tier and any tier) are
modelled by `r4 % len` and `r5 % len`; as `r4`, `r5` range over `Nat`
these realise exactly the indices `0 ≤ i < len` the JS draw can take. -/
def computerMove (b : Board) (aiMark humanMark : Mark) (r4 r5 : Nat) :
    Option Nat :=
  match findWinIdx b aiMark with
  | some i => some i
  | none =>
      match findWinIdx b humanMark with
      | some i => some i
      | none =>
          if cellAt b 4 = none then some 4
          else if (corners b).length > 0 then
            some ((corners b).getD (r4 % (corners b).length) 0)
          else if (getAvailableMoves b).length = 0 then none
          else some ((getAvailableMoves b).getD
            (r5 % (getAvailableMoves b).length) 0)

/-- The React component state of `App`: `mode`, `board`, `isXTurn`,
`winner`, `gameActive`. -/
structure Session : Type where
  mode : Mode
  board : Board
  isXTurn : Bool
  winner : GameResult
  gameActive : Bool
  deriving DecidableEq

/-- JS `makeMove(idx)` together with the `useEffect` on `[board, ...]`
that recomputes `winner` and `gameActive`: if the game is inactive or
the cell occupied, no state change; otherwise place the active mark,
flip the turn, and recompute the result from the new board. -/
def makeMove (idx : Nat) (s : Session) : Session :=
  if ¬ s.gameActive ∨ cellAt s.board idx ≠ none then s
  else
    let next := s.board.set idx (some (if s.isXTurn then Mark.X else Mark.O))
    let res := checkWinner next
    { s with
      board := next
      isXTurn := ! s.isXTurn
      winner := res
      gameActive := decide (res = GameResult.inProgress) }

/-- JS `handleCellClick(idx)`: in single-player mode the human may only
move when it is X's turn and the cell is empty; in two-player mode only
when the cell is empty; then delegate to `makeMove`. -/
def handleCellClick (idx : Nat) (s : Session) : Session :=
  match s.mode with
  | Mode.single =>
      if ¬ s.isXTurn ∨ cellAt s.board idx ≠ none then s else makeMove idx s
  | Mode.two =>
      if cellAt s.board idx ≠ none then s else makeMove idx s

/-- JS `handleRestart()`: fresh board, X to move, no winner, active. -/
def handleRestart (s : Session) : Session :=
  { s with
    board := getInitialBoard
    isXTurn := true
    winner := GameResult.inProgress
    gameActive := true }

/-- The initial component state of `App`. -/
def initialSession : Session :=
  { mode := Mode.single
    board := getInitialBoard
    isXTurn := true
    winner := GameResult.inProgress
    gameActive := true }

/-- Number of cells of `b` holding mark `m`. -/
def countMark (m : Mark) (b : Board) : Nat :=
  b.countP (fun c => c = some m)

/-- Session states reachable from the initial component state by move
requests at board indices (`makeMove`, which itself rejects occupied
cells and concluded games) and restarts (`handleRestart`). -/
inductive Reachable : Session → Prop
  | init : Reachable initialSession
  | move (idx : Nat) (s : Session) (hidx : idx < 9) (hs : Reachable s) :
      Reachable (makeMove idx s)
  | restart (s : Session) (hs : Reachable s) :
      Reachable (handleRestart s)

/-- Spec-side predicate: line `l` is completed by mark `m` on `b`
(all three cells of the triple hold `m`). -/
def completedBy (b : Board) (l : Nat × Nat × Nat) (m : Mark) : Prop :=
  cellAt b l.1 = some m ∧ cellAt b l.2.1 = some m ∧ cellAt b l.2.2 = some m

instance (b : Board) (l : Nat × Nat × Nat) (m : Mark) :
    Decidable (completedBy b l m) := by
  unfold completedBy; infer_instance

/-- Spec-side Boolean: some mark completes line `l` on `b`. -/
def completedTriple (b : Board) (l : Nat × Nat × Nat) : Bool :=
  decide (completedBy b l Mark.X) || decide (completedBy b l Mark.O)

/-- Spec-side predicate: index `i` is an empty cell of `b` at which
placing `m` yields an immediate win for `m`. -/
def winsAt (b : Board) (m : Mark) (i : Nat) : Prop :=
  i < b.length ∧ cellAt b i = none ∧
    checkWinner (b.set i (some m)) = GameResult.winner m

instance (b : Board) (m : Mark) (i : Nat) : Decidable (winsAt b m i) := by
  unfold winsAt; infer_instance

/-! ### Helper lemmas about the engine functions -/

lemma lineWin_eq_some_iff {b : Board} {l : Nat × Nat × Nat} {m : Mark} :
    lineWin b l = some m ↔ completedBy b l m := by
  unfold lineWin completedBy
  cases h : cellAt b l.1 with
  | none => simp [h]
  | some m' =>
      dsimp only
      by_cases h2 : cellAt b l.2.1 = some m' ∧ cellAt b l.2.2 = some m'
      · rw [if_pos h2]
        constructor
        · intro hw
          obtain rfl : m' = m := by simpa using hw
          exact ⟨rfl, h2.1, h2.2⟩
        · rintro ⟨h1, _, _⟩
          obtain rfl : m' = m := by simpa using h1
          rfl
      · rw [if_neg h2]
        constructor
        · intro hw
          exact absurd hw (by simp)
        · rintro ⟨h1, hb, hc⟩
          obtain rfl : m' = m := by simpa using h1
          exact absurd ⟨hb, hc⟩ h2

lemma firstWin_eq_none {b : Board} {ls : List (Nat × Nat × Nat)}
    (h : ∀ l ∈ ls, ∀ m, ¬ completedBy b l m) : firstWin b ls = none := by
  induction ls with
  | nil => rfl
  | cons l ls ih =>
      unfold firstWin
      have hl : lineWin b l = none := by
        cases hw : lineWin b l with
        | none => rfl
        | some m =>
            exact absurd (lineWin_eq_some_iff.mp hw)
              (h l (List.mem_cons_self _ _) m)
      rw [hl]
      exact ih (fun l' hl' m => h l' (List.mem_cons_of_mem _ hl') m)

lemma completedBy_completedTriple {b : Board} {l : Nat × Nat × Nat} {m : Mark}
    (h : completedBy b l m) : completedTriple b l = true := by
  unfold completedTriple
  cases m with
  | X => simp [h]
  | O => simp [h]

lemma firstWin_of_find? {b : Board} {l : Nat × Nat × Nat} {m : Mark} :
    ∀ {ls : List (Nat × Nat × Nat)},
      ls.find? (completedTriple b) = some l → completedBy b l m →
      firstWin b ls = some m := by
  intro ls
  induction ls with
  | nil => intro h; simp at h
  | cons a ls ih =>
      intro hfind hm
      by_cases ha : completedTriple b a = true
      · rw [List.find?_cons_of_pos _ ha] at hfind
        obtain rfl : a = l := by simpa using hfind
        unfold firstWin
        rw [lineWin_eq_some_iff.mpr hm]
      · rw [List.find?_cons_of_neg _ (by simpa using ha)] at hfind
        have hl : lineWin b a = none := by
          cases hw : lineWin b a with
          | none => rfl
          | some m' =>
              exact absurd
                (completedBy_completedTriple (lineWin_eq_some_iff.mp hw)) ha
        unfold firstWin
        rw [hl]
        exact ih hfind hm

lemma cellAt_eq_getElem {b : Board} {i : Nat} (h : i < b.length) :
    cellAt b i = b[i] := by
  simp [cellAt, List.getD_eq_getElem?_getD, List.getElem?_eq_getElem h]

lemma all_isSome_iff {b : Board} :
    (b.all fun c => c.isSome) = true ↔ ∀ i < b.length, cellAt b i ≠ none := by
  rw [List.all_eq_true]
  constructor
  · intro h i hi
    rw [cellAt_eq_getElem hi]
    have := h b[i] (List.getElem_mem hi)
    simp [Option.isSome_iff_ne_none] at this
    exact this
  · intro h c hc
    obtain ⟨i, hi, rfl⟩ := List.mem_iff_getElem.mp hc
    have := h i hi
    rw [cellAt_eq_getElem hi] at this
    simpa [Option.isSome_iff_ne_none] using this

/-! ### Claim theorems C1, C2 -/

/-- C1: for every 9-cell board on which no triple in `lines` is
completed by a single non-empty mark, `checkWinner` returns `draw` if
every cell is non-empty and `inProgress` otherwise. -/
theorem checkWinner_no_line (b : Board) (h9 : b.length = 9)
    (hno : ∀ l ∈ lines, ∀ m, ¬ completedBy b l m) :
    ((∀ i < 9, cellAt b i ≠ none) → checkWinner b = GameResult.draw) ∧
    ((∃ i, i < 9 ∧ cellAt b i = none) →
      checkWinner b = GameResult.inProgress) := by
  have hfw : firstWin b lines = none := firstWin_eq_none hno
  constructor
  · intro hfull
    unfold checkWinner
    rw [hfw, if_pos (all_isSome_iff.mpr (by rw [h9]; exact hfull))]
  · rintro ⟨i, hi, hcell⟩
    unfold checkWinner
    rw [hfw, if_neg ?_]
    intro hall
    exact all_isSome_iff.mp hall i (by rw [h9]; exact hi) hcell

/-- C1 witness: a board with two marks, no completed triple, and empty
cells; `checkWinner` reports the game as in progress. -/
theorem checkWinner_no_line_witness :
    checkWinner [some Mark.X, some Mark.O, none, none, none, none,
      none, none, none] = GameResult.inProgress :=
  (checkWinner_no_line [some Mark.X, some Mark.O, none, none, none, none,
      none, none, none] (by decide) (by decide)).2 ⟨2, by decide, rfl⟩

/-- C2: for every board (including boards with several simultaneously
completed lines), if the first triple of `lines` (in source order: rows
0-2, columns 0-2, then the two diagonals) completed by some mark is `l`
and `l` is completed by `m`, then `checkWinner` returns `winner m`. -/
theorem checkWinner_first_triple (b : Board) (l : Nat × Nat × Nat)
    (m : Mark) (hfind : lines.find? (completedTriple b) = some l)
    (hm : completedBy b l m) : checkWinner b = GameResult.winner m := by
  unfold checkWinner
  rw [firstWin_of_find? hfind hm]

/-- C2 witness: a board where both the first row (all X) and the third
row (all O) are complete; the first triple in check order is the X row,
and `checkWinner` returns X. -/
theorem checkWinner_first_triple_witness :
    checkWinner [some Mark.X, some Mark.X, some Mark.X, none, none, none,
      some Mark.O, some Mark.O, some Mark.O] = GameResult.winner Mark.X :=
  checkWinner_first_triple _ (0, 1, 2) Mark.X (by decide) (by decide)

/-! ### Available-move enumeration -/

lemma mem_availAux (cs : List Cell) :
    ∀ (k j : Nat), j ∈ availAux k cs ↔
      ∃ t, t < cs.length ∧ cs.getD t none = none ∧ j = k + t := by
  induction cs with
  | nil => intro k j; simp [availAux]
  | cons c cs ih =>
      intro k j
      unfold availAux
      by_cases hc : c = none
      · rw [if_pos hc]
        simp only [List.mem_cons]
        constructor
        · rintro (rfl | hj)
          · exact ⟨0, by simp, by simp [hc], by omega⟩
          · obtain ⟨t, ht, he, rfl⟩ := (ih (k + 1) j).mp hj
            exact ⟨t + 1, by simp only [List.length_cons]; omega,
              by simpa using he, by omega⟩
        · rintro ⟨t, ht, he, rfl⟩
          cases t with
          | zero => left; omega
          | succ t' =>
              right
              refine (ih (k + 1) _).mpr ⟨t', ?_, ?_, ?_⟩
              · simp only [List.length_cons] at ht; omega
              · simpa using he
              · omega
      · rw [if_neg hc]
        constructor
        · intro hj
          obtain ⟨t, ht, he, rfl⟩ := (ih (k + 1) j).mp hj
          exact ⟨t + 1, by simp only [List.length_cons]; omega,
            by simpa using he, by omega⟩
        · rintro ⟨t, ht, he, rfl⟩
          cases t with
          | zero => rw [List.getD_cons_zero] at he; exact absurd he hc
          | succ t' =>
              refine (ih (k + 1) _).mpr ⟨t', ?_, ?_, ?_⟩
              · simp only [List.length_cons] at ht; omega
              · simpa using he
              · omega

lemma mem_getAvailableMoves {b : Board} {i : Nat} :
    i ∈ getAvailableMoves b ↔ i < b.length ∧ cellAt b i = none := by
  unfold getAvailableMoves
  rw [mem_availAux]
  constructor
  · rintro ⟨t, ht, he, rfl⟩
    refine ⟨by omega, ?_⟩
    simpa [cellAt] using he
  · rintro ⟨hi, he⟩
    exact ⟨i, hi, he, by omega⟩

lemma availAux_pairwise (cs : List Cell) :
    ∀ (k : Nat), (availAux k cs).Pairwise (· < ·) := by
  induction cs with
  | nil => intro k; simp [availAux]
  | cons c cs ih =>
      intro k
      unfold availAux
      by_cases hc : c = none
      · rw [if_pos hc]
        refine List.Pairwise.cons ?_ (ih (k + 1))
        intro j hj
        obtain ⟨t, _, _, rfl⟩ := (mem_availAux cs (k + 1) j).mp hj
        omega
      · rw [if_neg hc]
        exact ih (k + 1)

lemma find?_eq_some_of_min {p : Nat → Bool} :
    ∀ {l : List Nat}, l.Pairwise (· < ·) → ∀ {x : Nat}, x ∈ l →
      p x = true → (∀ y ∈ l, p y = true → x ≤ y) → l.find? p = some x := by
  intro l
  induction l with
  | nil => intro _ x hx; simp at hx
  | cons a l ih =>
      intro hs x hx hpx hmin
      by_cases hpa : p a = true
      · rw [List.find?_cons_of_pos _ hpa]
        rcases List.mem_cons.mp hx with rfl | hx'
        · rfl
        · have h1 : a < x := (List.pairwise_cons.mp hs).1 x hx'
          have h2 : x ≤ a := hmin a (List.mem_cons_self _ _) hpa
          omega
      · rw [List.find?_cons_of_neg _ (by simpa using hpa)]
        rcases List.mem_cons.mp hx with rfl | hx'
        · exact absurd hpx hpa
        · exact ih (List.pairwise_cons.mp hs).2 hx' hpx
            (fun y hy hpy => hmin y (List.mem_cons_of_mem _ hy) hpy)

lemma winsAt_iff_mem {b : Board} {m : Mark} {i : Nat} :
    winsAt b m i ↔ i ∈ getAvailableMoves b ∧
      checkWinner (b.set i (some m)) = GameResult.winner m := by
  unfold winsAt
  rw [mem_getAvailableMoves]
  tauto

lemma findWinIdx_eq_some {b : Board} {m : Mark} {i : Nat}
    (hw : winsAt b m i) (hmin : ∀ j, j < i → ¬ winsAt b m j) :
    findWinIdx b m = some i := by
  unfold findWinIdx
  refine find?_eq_some_of_min ?_ (winsAt_iff_mem.mp hw).1 ?_ ?_
  · exact availAux_pairwise b 0
  · simpa using (winsAt_iff_mem.mp hw).2
  · intro y hy hpy
    by_contra hlt
    push_neg at hlt
    exact hmin y hlt (winsAt_iff_mem.mpr ⟨hy, by simpa using hpy⟩)

lemma findWinIdx_eq_none {b : Board} {m : Mark} (h9 : b.length = 9)
    (hno : ∀ j, j < 9 → ¬ winsAt b m j) : findWinIdx b m = none := by
  unfold findWinIdx
  rw [List.find?_eq_none]
  intro x hx hp
  have hx' := mem_getAvailableMoves.mp hx
  exact hno x (by omega) (winsAt_iff_mem.mpr ⟨hx, by simpa using hp⟩)

lemma getD_mem {l : List Nat} {n : Nat} (h : n < l.length) :
    l.getD n 0 ∈ l := by
  rw [List.getD_eq_getElem?_getD, List.getElem?_eq_getElem h]
  simp only [Option.getD_some]
  exact List.getElem_mem h

lemma mem_corners {b : Board} {i : Nat} (h : i ∈ corners b) :
    i < 9 ∧ cellAt b i = none := by
  unfold corners at h
  rw [List.mem_filter] at h
  obtain ⟨hmem, hp⟩ := h
  have hi : i = 0 ∨ i = 2 ∨ i = 6 ∨ i = 8 := by simpa using hmem
  exact ⟨by rcases hi with rfl | rfl | rfl | rfl <;> omega, by simpa using hp⟩

lemma getAvailableMoves_eq_nil_iff {b : Board} (h9 : b.length = 9) :
    getAvailableMoves b = [] ↔ ∀ i, i < 9 → cellAt b i ≠ none := by
  rw [List.eq_nil_iff_forall_not_mem]
  constructor
  · intro h i hi hcell
    exact h i (mem_getAvailableMoves.mpr ⟨by omega, hcell⟩)
  · intro h i hmem
    obtain ⟨hi, hcell⟩ := mem_getAvailableMoves.mp hmem
    exact h i (by omega) hcell

lemma computerMove_some_of_nonfull (b : Board) (ai hu : Mark)
    (r4 r5 : Nat) (h9 : b.length = 9)
    (hne : ∃ i, i < 9 ∧ cellAt b i = none) :
    ∃ i, computerMove b ai hu r4 r5 = some i ∧ i < 9 ∧ cellAt b i = none := by
  obtain ⟨i0, hi0, hc0⟩ := hne
  have hmem0 : i0 ∈ getAvailableMoves b :=
    mem_getAvailableMoves.mpr ⟨by omega, hc0⟩
  unfold computerMove
  cases hfw1 : findWinIdx b ai with
  | some i =>
      obtain ⟨hlen, hcell⟩ :=
        mem_getAvailableMoves.mp (List.mem_of_find?_eq_some hfw1)
      exact ⟨i, rfl, by omega, hcell⟩
  | none =>
      cases hfw2 : findWinIdx b hu with
      | some i =>
          obtain ⟨hlen, hcell⟩ :=
            mem_getAvailableMoves.mp (List.mem_of_find?_eq_some hfw2)
          exact ⟨i, rfl, by omega, hcell⟩
      | none =>
          by_cases h4 : cellAt b 4 = none
          · rw [if_pos h4]
            exact ⟨4, rfl, by omega, h4⟩
          · rw [if_neg h4]
            by_cases hcor : (corners b).length > 0
            · rw [if_pos hcor]
              obtain ⟨hj9, hjc⟩ :=
                mem_corners (getD_mem (Nat.mod_lt r4 hcor))
              exact ⟨_, rfl, hj9, hjc⟩
            · rw [if_neg hcor]
              have hlen0 : ¬ (getAvailableMoves b).length = 0 := by
                intro h0
                rw [List.length_eq_zero] at h0
                rw [h0] at hmem0
                simp at hmem0
              rw [if_neg hlen0]
              obtain ⟨hl, hc⟩ := mem_getAvailableMoves.mp
                (getD_mem (Nat.mod_lt r5 (Nat.pos_of_ne_zero hlen0)))
              exact ⟨_, rfl, by omega, hc⟩

lemma computerMove_eq_none_of_full (b : Board) (ai hu : Mark)
    (r4 r5 : Nat) (h9 : b.length = 9)
    (hfull : ∀ i, i < 9 → cellAt b i ≠ none) :
    computerMove b ai hu r4 r5 = none := by
  have hav : getAvailableMoves b = [] :=
    (getAvailableMoves_eq_nil_iff h9).mpr hfull
  have hfw : ∀ m : Mark, findWinIdx b m = none := by
    intro m
    unfold findWinIdx
    rw [hav]
    rfl
  unfold computerMove
  rw [hfw ai, hfw hu, if_neg (hfull 4 (by omega))]
  have hcor : corners b = [] := by
    unfold corners
    rw [List.filter_eq_nil_iff]
    intro a ha
    have ha' : a = 0 ∨ a = 2 ∨ a = 6 ∨ a = 8 := by simpa using ha
    simp only [decide_eq_true_eq]
    rcases ha' with rfl | rfl | rfl | rfl <;> exact hfull _ (by omega)
  rw [hcor, hav]
  simp

/-! ### Claim theorems C3, C4, C5 -/

/-- C3: tier 1 of `computerMove` returns the smallest empty index at
which the computer's mark wins immediately, and when no such index
exists, tier 2 returns the smallest empty index at which the opponent's
mark would win immediately (the blocking move); the win tier strictly
precedes the block tier and both scan by ascending index. -/
theorem computerMove_win_block (b : Board) (ai hu : Mark) (r4 r5 : Nat)
    (i : Nat) (h9 : b.length = 9) :
    (winsAt b ai i → (∀ j, j < i → ¬ winsAt b ai j) →
      computerMove b ai hu r4 r5 = some i) ∧
    ((∀ j, j < 9 → ¬ winsAt b ai j) → winsAt b hu i →
      (∀ j, j < i → ¬ winsAt b hu j) →
      computerMove b ai hu r4 r5 = some i) := by
  constructor
  · intro hw hmin
    unfold computerMove
    rw [findWinIdx_eq_some hw hmin]
  · intro hno hw hmin
    unfold computerMove
    rw [findWinIdx_eq_none h9 hno, findWinIdx_eq_some hw hmin]

/-- C3 witness: with two O's on row one, O to move wins at index 2;
with two X's on row one and no O win anywhere, O blocks at index 2. -/
theorem computerMove_win_block_witness :
    computerMove [some Mark.O, some Mark.O, none, none, none, none,
      none, none, none] Mark.O Mark.X 0 0 = some 2 ∧
    computerMove [some Mark.X, some Mark.X, none, none, none, none,
      none, none, none] Mark.O Mark.X 0 0 = some 2 :=
  ⟨(computerMove_win_block [some Mark.O, some Mark.O, none, none, none,
      none, none, none, none] Mark.O Mark.X 0 0 2 (by decide)).1
      (by decide) (by decide),
   (computerMove_win_block [some Mark.X, some Mark.X, none, none, none,
      none, none, none, none] Mark.O Mark.X 0 0 2 (by decide)).2
      (by decide) (by decide) (by decide)⟩

/-- C4 counterexample: on the board `[X,X,_, O,O,_, _,_,_]` with the
computer playing O, `computerMove` does not return the blocking index
2 — O has an immediate win at index 5 completing row `{3,4,5}`, and the
win tier fires first. -/
theorem computerMove_scenario_ne_two :
    computerMove [some Mark.X, some Mark.X, none, some Mark.O,
      some Mark.O, none, none, none, none] Mark.O Mark.X 0 0 ≠
      some 2 := by decide

/-- C4 amended: on the board `[X,X,_, O,O,_, _,_,_]` with the computer
playing O, `computerMove` returns index 5, O's immediate winning move
completing the row `{3,4,5}` (the win tier precedes the block tier). -/
theorem computerMove_scenario_returns_five (r4 r5 : Nat) :
    computerMove [some Mark.X, some Mark.X, none, some Mark.O,
      some Mark.O, none, none, none, none] Mark.O Mark.X r4 r5 =
      some 5 := by
  unfold computerMove
  rw [findWinIdx_eq_some (m := Mark.O) (i := 5) (by decide) (by decide)]

/-- C5: on a 9-cell board with at least one empty cell, `computerMove`
returns an index below 9 whose cell is empty, for every value of the
random draws; and it returns `none` exactly when the board is full. -/
theorem computerMove_safety (b : Board) (ai hu : Mark) (r4 r5 : Nat)
    (h9 : b.length = 9) :
    ((∃ i, i < 9 ∧ cellAt b i = none) →
      ∃ i, computerMove b ai hu r4 r5 = some i ∧ i < 9 ∧
        cellAt b i = none) ∧
    (computerMove b ai hu r4 r5 = none ↔
      ∀ i, i < 9 → cellAt b i ≠ none) := by
  refine ⟨computerMove_some_of_nonfull b ai hu r4 r5 h9, ?_, ?_⟩
  · intro hnone
    by_contra hfull
    push_neg at hfull
    obtain ⟨i, hi, hc⟩ := hfull
    obtain ⟨j, hj, _, _⟩ :=
      computerMove_some_of_nonfull b ai hu r4 r5 h9 ⟨i, hi, hc⟩
    rw [hnone] at hj
    exact absurd hj (by simp)
  · exact computerMove_eq_none_of_full b ai hu r4 r5 h9

/-- C5 witness: on a concrete non-full board the returned move is an
empty cell, and on the full board the function returns `none`. -/
theorem computerMove_safety_witness :
    (∃ i, computerMove [some Mark.X, none, none, none, none, none,
      none, none, none] Mark.O Mark.X 1 1 = some i ∧ i < 9 ∧
      cellAt [some Mark.X, none, none, none, none, none,
        none, none, none] i = none) ∧
    computerMove (List.replicate 9 (some Mark.X)) Mark.O Mark.X 1 1 =
      none :=
  ⟨(computerMove_safety [some Mark.X, none, none, none, none, none,
      none, none, none] Mark.O Mark.X 1 1 (by decide)).1
      ⟨1, by decide, rfl⟩,
   (computerMove_safety (List.replicate 9 (some Mark.X)) Mark.O Mark.X
      1 1 (by decide)).2.mpr (by decide)⟩

/-! ### Session lemmas -/

lemma cellAt_set_self (b : Board) (i : Nat) (c : Cell)
    (h : i < b.length) : cellAt (b.set i c) i = c := by
  simp [cellAt, List.getD_eq_getElem?_getD, List.getElem?_set_self h]

lemma cellAt_set_ne (b : Board) (i j : Nat) (c : Cell) (h : i ≠ j) :
    cellAt (b.set i c) j = cellAt b j := by
  simp [cellAt, List.getD_eq_getElem?_getD, List.getElem?_set_ne h]

lemma makeMove_rejects {s : Session} {idx : Nat}
    (h : s.gameActive = false ∨ cellAt s.board idx ≠ none) :
    makeMove idx s = s := by
  unfold makeMove
  rw [if_pos]
  rcases h with h | h
  · exact Or.inl (by simp [h])
  · exact Or.inr h

lemma makeMove_applies {s : Session} {idx : Nat}
    (hact : s.gameActive = true) (hempty : cellAt s.board idx = none) :
    makeMove idx s =
      { s with
        board := s.board.set idx
          (some (if s.isXTurn then Mark.X else Mark.O))
        isXTurn := ! s.isXTurn
        winner := checkWinner (s.board.set idx
          (some (if s.isXTurn then Mark.X else Mark.O)))
        gameActive := decide (checkWinner (s.board.set idx
          (some (if s.isXTurn then Mark.X else Mark.O))) =
          GameResult.inProgress) } := by
  unfold makeMove
  rw [if_neg]
  push_neg
  exact ⟨by simp [hact], hempty⟩

/-! ### Claim theorems C6, C7, C8 -/

/-- C6: the human move request leaves the whole session unchanged when
the session is inactive, the target cell is occupied, or, in
single-player mode, it is not the human X's turn. -/
theorem handleCellClick_rejects (s : Session) (idx : Nat)
    (h : s.gameActive = false ∨ cellAt s.board idx ≠ none ∨
      (s.mode = Mode.single ∧ s.isXTurn = false)) :
    handleCellClick idx s = s := by
  unfold handleCellClick
  cases hsm : s.mode with
  | single =>
      by_cases hcond : ¬ s.isXTurn = true ∨ cellAt s.board idx ≠ none
      · rw [if_pos (by simpa using hcond)]
      · rw [if_neg (by simpa using hcond)]
        push_neg at hcond
        obtain ⟨hx, hc⟩ := hcond
        rcases h with h | h | h
        · exact makeMove_rejects (Or.inl h)
        · exact absurd hc h
        · exact absurd hx (by simp [h.2])
  | two =>
      by_cases hcond : cellAt s.board idx ≠ none
      · rw [if_pos hcond]
      · rw [if_neg hcond]
        push_neg at hcond
        rcases h with h | h | h
        · exact makeMove_rejects (Or.inl h)
        · exact absurd hcond h
        · exact absurd (hsm.symm.trans h.1) (by simp)

/-- C6 witness: a click on an inactive (concluded) session changes
nothing. -/
theorem handleCellClick_rejects_witness :
    handleCellClick 3
      { mode := Mode.two,
        board := [some Mark.X, some Mark.X, some Mark.X, none, none,
          none, some Mark.O, some Mark.O, none],
        isXTurn := false, winner := GameResult.winner Mark.X,
        gameActive := false } =
      { mode := Mode.two,
        board := [some Mark.X, some Mark.X, some Mark.X, none, none,
          none, some Mark.O, some Mark.O, none],
        isXTurn := false, winner := GameResult.winner Mark.X,
        gameActive := false } :=
  handleCellClick_rejects _ 3 (Or.inl rfl)

/-- C7: when the session is active, the target cell is empty, and (in
single-player mode) it is X's turn, the click places the active mark at
`idx`, leaves the other cells and the mode unchanged, flips the turn,
recomputes the result from the new board via `checkWinner`, and
deactivates the session exactly when that result is not in-progress. -/
theorem handleCellClick_applies (s : Session) (idx : Nat)
    (hact : s.gameActive = true) (hempty : cellAt s.board idx = none)
    (hturn : s.mode = Mode.single → s.isXTurn = true)
    (hidx : idx < s.board.length) :
    (handleCellClick idx s).mode = s.mode ∧
    (handleCellClick idx s).board =
      s.board.set idx (some (if s.isXTurn then Mark.X else Mark.O)) ∧
    cellAt (handleCellClick idx s).board idx =
      some (if s.isXTurn then Mark.X else Mark.O) ∧
    (∀ j, j ≠ idx →
      cellAt (handleCellClick idx s).board j = cellAt s.board j) ∧
    (handleCellClick idx s).isXTurn = (! s.isXTurn) ∧
    (handleCellClick idx s).winner =
      checkWinner (handleCellClick idx s).board ∧
    ((handleCellClick idx s).gameActive = false ↔
      checkWinner (handleCellClick idx s).board ≠
        GameResult.inProgress) := by
  have h1 : handleCellClick idx s = makeMove idx s := by
    unfold handleCellClick
    cases hsm : s.mode with
    | single =>
        rw [if_neg (show ¬ (¬ s.isXTurn = true ∨ cellAt s.board idx ≠ none)
          by push_neg; exact ⟨hturn hsm, hempty⟩)]
    | two =>
        rw [if_neg (show ¬ cellAt s.board idx ≠ none
          from fun hcc => hcc hempty)]
  rw [h1, makeMove_applies hact hempty]
  refine ⟨rfl, rfl, ?_, ?_, rfl, rfl, ?_⟩
  · exact cellAt_set_self s.board idx _ hidx
  · intro j hj
    exact cellAt_set_ne s.board idx j _ (fun he => hj he.symm)
  · simp

/-- C7 witness: clicking the centre of the fresh board places X there,
flips the turn to O, leaves cell 0 empty, and keeps the game active. -/
theorem handleCellClick_applies_witness :
    cellAt (handleCellClick 4 initialSession).board 4 = some Mark.X ∧
    cellAt (handleCellClick 4 initialSession).board 0 = none ∧
    (handleCellClick 4 initialSession).isXTurn = false :=
  ⟨(handleCellClick_applies initialSession 4 rfl rfl (fun _ => rfl)
      (by decide)).2.2.1,
   by
    have h := (handleCellClick_applies initialSession 4 rfl rfl
      (fun _ => rfl) (by decide)).2.2.2.1 0 (by decide)
    rw [h]
    rfl,
   (handleCellClick_applies initialSession 4 rfl rfl (fun _ => rfl)
      (by decide)).2.2.2.2.1⟩

/-- C8: after a restart, regardless of the prior session state, the
board is all-empty, X is to move, the result is in-progress, and the
session is active. -/
theorem handleRestart_resets (s : Session) :
    (handleRestart s).board = getInitialBoard ∧
    (∀ i, cellAt (handleRestart s).board i = none) ∧
    (handleRestart s).isXTurn = true ∧
    (handleRestart s).winner = GameResult.inProgress ∧
    (handleRestart s).gameActive = true := by
  refine ⟨rfl, ?_, rfl, rfl, rfl⟩
  intro i
  show cellAt getInitialBoard i = none
  unfold cellAt getInitialBoard
  rw [List.getD_eq_getElem?_getD, List.getElem?_replicate]
  split <;> rfl

/-! ### Claim theorem C10 -/

lemma countMark_set (cs : List Cell) :
    ∀ (i : Nat) (m m' : Mark), i < cs.length → cs.getD i none = none →
      countMark m' (cs.set i (some m)) =
        countMark m' cs + (if m' = m then 1 else 0) := by
  induction cs with
  | nil => intro i m m' hi; simp at hi
  | cons c cs ih =>
      intro i m m' hi hc
      cases i with
      | zero =>
          rw [List.getD_cons_zero] at hc
          subst hc
          by_cases hmm' : m' = m
          · subst hmm'
            simp [countMark, List.countP_cons]
          · simp [countMark, List.countP_cons, hmm', Ne.symm hmm']
      | succ i' =>
          rw [List.getD_cons_succ] at hc
          have hlen : i' < cs.length := by
            simp only [List.length_cons] at hi
            omega
          have hih := ih i' m m' hlen hc
          simp only [countMark] at hih
          simp only [countMark, List.set_cons_succ, List.countP_cons]
          omega

lemma reachable_balance {s : Session} (hs : Reachable s) :
    s.board.length = 9 ∧
    (s.isXTurn = true →
      countMark Mark.X s.board = countMark Mark.O s.board) ∧
    (s.isXTurn = false →
      countMark Mark.X s.board = countMark Mark.O s.board + 1) := by
  induction hs with
  | init => exact ⟨by decide, by decide, by decide⟩
  | move idx s hidx hs ih =>
      obtain ⟨hlen, hX, hO⟩ := ih
      by_cases hrej : s.gameActive = false ∨ cellAt s.board idx ≠ none
      · rw [makeMove_rejects hrej]
        exact ⟨hlen, hX, hO⟩
      · push_neg at hrej
        obtain ⟨hact, hcell⟩ := hrej
        have hset : ∀ m m' : Mark,
            countMark m' (s.board.set idx (some m)) =
              countMark m' s.board + (if m' = m then 1 else 0) :=
          fun m m' => countMark_set s.board idx m m' (by omega) hcell
        rw [makeMove_applies (by simpa using hact) hcell]
        cases hxt : s.isXTurn with
        | true =>
            refine ⟨by simp [hlen], ?_, ?_⟩
            · intro h'
              simp at h'
            · intro _
              show countMark Mark.X (s.board.set idx (some Mark.X)) =
                countMark Mark.O (s.board.set idx (some Mark.X)) + 1
              rw [hset Mark.X Mark.X, hset Mark.X Mark.O]
              have hb := hX hxt
              simp [hb]
        | false =>
            refine ⟨by simp [hlen], ?_, ?_⟩
            · intro _
              show countMark Mark.X (s.board.set idx (some Mark.O)) =
                countMark Mark.O (s.board.set idx (some Mark.O))
              rw [hset Mark.O Mark.X, hset Mark.O Mark.O]
              have hb := hO hxt
              simp [hb]
            · intro h'
              simp at h'
  | restart s hs ih =>
      refine ⟨?_, ?_, ?_⟩
      · show getInitialBoard.length = 9
        decide
      · intro _
        show countMark Mark.X getInitialBoard =
          countMark Mark.O getInitialBoard
        decide
      · intro h'
        simp [handleRestart] at h'

/-- C10: in every session reachable from the initial state by moves and
restarts, the number of X cells equals the number of O cells when X is
to move and exceeds it by one when O is to move; in particular the two
counts never differ by more than one. -/
theorem reachable_mark_balance (s : Session) (hs : Reachable s) :
    (s.isXTurn = true →
      countMark Mark.X s.board = countMark Mark.O s.board) ∧
    (s.isXTurn = false →
      countMark Mark.X s.board = countMark Mark.O s.board + 1) ∧
    countMark Mark.O s.board ≤ countMark Mark.X s.board ∧
    countMark Mark.X s.board ≤ countMark Mark.O s.board + 1 := by
  obtain ⟨_, hX, hO⟩ := reachable_balance hs
  have h : countMark Mark.X s.board = countMark Mark.O s.board ∨
      countMark Mark.X s.board = countMark Mark.O s.board + 1 := by
    cases hxt : s.isXTurn with
    | true => exact Or.inl (hX hxt)
    | false => exact Or.inr (hO hxt)
  exact ⟨hX, hO, by omega, by omega⟩

/-- C10 witness: after X's opening move at the centre, X has one more
cell than O and O is to move. -/
theorem reachable_mark_balance_witness :
    countMark Mark.X (makeMove 4 initialSession).board =
      countMark Mark.O (makeMove 4 initialSession).board + 1 :=
  (reachable_mark_balance (makeMove 4 initialSession)
    (Reachable.move 4 initialSession (by decide) Reachable.init)).2.1
    (by decide)

end TicTacToe
